import Mathlib

/-!
# Verification of the document chunking and size-normalization subsystem

Shallow embedding of the token-budget estimator (`src/utils/textAnalysis.ts`),
the token-aware text chunker with overlap (`src/utils/documentChunking.ts`),
the retry-budget derivation (`handleRetryFile` in the document page), and the
chunk summarization orchestration (`src/lib/services/backend/groq-summary.service.ts`).

Strings are modelled at the character-list level (`List Char`); the JS string
operations used by the code (length, concatenation with `' '`, `trim().split(/\s+/)`)
are translated to executable functions on `List Char`.  JS `number` values that
the code only ever uses as non-negative integers (token counts, budgets, word
counts, chunk counts) are modelled as `Nat`.
-/

namespace FileClassifier

/-- A word, modelled as its character list. -/
abbrev W := List Char

/-- JS `\s` test on a character (the relevant inputs are ASCII text). -/
def isWsChar (c : Char) : Bool := c.isWhitespace

/-- `countTokens` from `src/utils/textAnalysis.ts` (character-list level):
`Math.ceil(text.length / 4)`, with the `!text` guard returning 0 — for the
empty string both give 0, so the single formula `(length + 3) / 4` is the
faithful translation. -/
def countTokensL (s : List Char) : Nat := (s.length + 3) / 4

/-- Helper for `wordsOfL`: scans characters, `acc` holds the current word
reversed.  Produces the maximal non-whitespace runs of the input, in order. -/
def wordsAux : List Char → List Char → List W
  | [], acc => if acc = [] then [] else [acc.reverse]
  | c :: cs, acc =>
    if isWsChar c then
      if acc = [] then wordsAux cs [] else acc.reverse :: wordsAux cs []
    else wordsAux cs (c :: acc)

/-- `text.trim().split(/\s+/)` as used by `chunkTextByTokens` and `countWords`:
the maximal non-whitespace runs of the text.  (JS returns `[""]` for a
whitespace-only string where this returns `[]`; in `chunkTextByTokens` that lone
empty word provably leaves the loop state unchanged, and `countWords` filters
empty tokens out, so the two are extensionally interchangeable — see
`chunkTextByTokens`.) -/
def wordsOfL (s : List Char) : List W := wordsAux s []

/-- Joining a word list with single spaces, exactly how `chunkTextByTokens`
accumulates `currentChunk` (`currentChunk + ' ' + word` when non-empty) and
builds overlap text (`overlapWords.join(' ')`). -/
def joinL : List W → List Char
  | [] => []
  | [w] => w
  | w :: ws => w ++ ' ' :: joinL ws

/-- The loop state of `chunkTextByTokens`: `currentChunk` (kept as its word
list; the string value is `joinL cur`), the emitted `chunks` (word lists, in
emission order), and the `overlapWords` buffer. -/
structure ChunkState where
  cur : List W
  chunks : List (List W)
  overlap : List W
deriving DecidableEq, Repr

/-- One iteration of the `for` loop of `chunkTextByTokens`
(`src/utils/documentChunking.ts` lines 30–61) on word `w`:
if adding `w` would exceed `maxTokens` and the running chunk is non-empty,
emit the running chunk and seed a new one from the overlap buffer plus `w`
(resetting the buffer); otherwise extend the running chunk.  Then append `w`
to the overlap buffer, and drop its oldest word when the buffer holds more
than 50 words *and* its joined token estimate exceeds `overlapTokens`. -/
def chunkStep (maxTokens overlapTokens : Nat) (st : ChunkState) (w : W) : ChunkState :=
  let test := st.cur ++ [w]
  let st1 : ChunkState :=
    if maxTokens < countTokensL (joinL test) ∧ st.cur ≠ [] then
      ⟨st.overlap ++ [w], st.chunks ++ [st.cur], []⟩
    else
      ⟨test, st.chunks, st.overlap⟩
  let buf := st1.overlap ++ [w]
  ⟨st1.cur, st1.chunks,
    if 50 < buf.length ∧ overlapTokens < countTokensL (joinL buf) then buf.tail else buf⟩

/-- The whole word loop of `chunkTextByTokens`, starting from the empty state. -/
def chunkLoop (maxTokens overlapTokens : Nat) (ws : List W) : ChunkState :=
  ws.foldl (chunkStep maxTokens overlapTokens) ⟨[], [], []⟩

/-- Word-level result of `chunkTextByTokens` past the small-text early return:
run the loop, then push the final running chunk if non-empty. -/
def chunkWordsByTokens (maxTokens overlapTokens : Nat) (ws : List W) : List (List W) :=
  let st := chunkLoop maxTokens overlapTokens ws
  if st.cur = [] then st.chunks else st.chunks ++ [st.cur]

/-- `chunkTextByTokens` (character-list level), translated from
`src/utils/documentChunking.ts` lines 12–69:
empty (falsy) input returns `[]`; text within budget is returned as the single
chunk unchanged; otherwise the word loop runs, and if it produced no chunks the
original text is returned as one chunk. -/
def chunkTextL (text : List Char) (maxTokens overlapTokens : Nat) : List (List Char) :=
  if text = [] then []
  else if countTokensL text ≤ maxTokens then [text]
  else
    let cs := (chunkWordsByTokens maxTokens overlapTokens (wordsOfL text)).map joinL
    if cs = [] then [text] else cs

/-! ## String-level API, with the source's names -/

/-- `countTokens` from `src/utils/textAnalysis.ts`. -/
def countTokens (s : String) : Nat := countTokensL s.toList

/-- `countWords` from `src/utils/textAnalysis.ts`:
`text.trim().split(/\s+/).filter(w => w.length > 0).length`, i.e. the number of
maximal non-whitespace runs (the `filter` removes the `[""]` artifact of JS
`split` on an empty/whitespace-only trimmed string, so `wordsOfL` is exact). -/
def countWords (s : String) : Nat := (wordsOfL s.toList).length

/-- Result record of `analyzeText`. -/
structure TextAnalysis where
  wordCount : Nat
  tokenCount : Nat
deriving DecidableEq, Repr

/-- `analyzeText` from `src/utils/textAnalysis.ts`.  Its `!text` guard returns
`(0, 0)`, which agrees with `countWords`/`countTokens` on `""`, so the
unguarded pair is the faithful translation for string input. -/
def analyzeText (s : String) : TextAnalysis := ⟨countWords s, countTokens s⟩

/-- A JS argument that may fail the `typeof text !== 'string'` guards:
either an actual string or any non-string value. -/
inductive JsInput where
  | str (s : String)
  | nonString
deriving DecidableEq, Repr

/-- `analyzeText` including the non-string guard. -/
def analyzeTextJs : JsInput → TextAnalysis
  | .str s => analyzeText s
  | .nonString => ⟨0, 0⟩

/-- `chunkTextByTokens` on strings. -/
def chunkTextByTokens (text : String) (maxTokens overlapTokens : Nat) : List String :=
  (chunkTextL text.toList maxTokens overlapTokens).map String.mk

/-- `chunkTextByTokens` including the non-string guard (`!text || typeof text !== 'string'`). -/
def chunkTextByTokensJs : JsInput → Nat → Nat → List String
  | .str s, maxTokens, overlapTokens => chunkTextByTokens s maxTokens overlapTokens
  | .nonString, _, _ => []

/-- The record returned by `chunkDocumentByTokens`. -/
structure ChunkPlan where
  chunks : List String
  originalTokenCount : Nat
  chunkCount : Nat
  needsChunking : Bool
  text : String
deriving DecidableEq, Repr

/-- `chunkDocumentByTokens` from `src/utils/documentChunking.ts` lines 83–113,
for string content (`contentToText` is the identity on strings; non-string
content is serialized upstream and enters here as its text). -/
def chunkDocumentByTokens (text : String) (maxTokens overlapTokens : Nat) : ChunkPlan :=
  let originalTokenCount := countTokens text
  if maxTokens < originalTokenCount then
    let chunks := chunkTextByTokens text maxTokens overlapTokens
    ⟨chunks, originalTokenCount, chunks.length, true, text⟩
  else
    ⟨[text], originalTokenCount, 1, false, text⟩

/-- The target chunk budget derived in `handleRetryFile` when the user retries
an upload chunked into `chunkCount` parts:
`Math.max(Math.floor(countTokens(fileContent) / chunkCount), 500)`
(the 500-token floor avoids degenerate tiny fragments).  The UI offers
`chunkCount ∈ {2,3,5,10,15,20}`, so `chunkCount ≥ 1` throughout. -/
def retryTargetTokens (fileContent : String) (chunkCount : Nat) : Nat :=
  max (countTokens fileContent / chunkCount) 500

/-! ## Basic lemmas about words and joining -/

/-- A word as produced by the splitter: non-empty and free of whitespace. -/
def GoodWord (w : W) : Prop := w ≠ [] ∧ ∀ c ∈ w, ¬ isWsChar c

theorem joinL_cons_cons (a b : W) (l : List W) :
    joinL (a :: b :: l) = a ++ ' ' :: joinL (b :: l) := rfl

theorem joinL_append_singleton (ws : List W) (w : W) (h : ws ≠ []) :
    joinL (ws ++ [w]) = joinL ws ++ ' ' :: w := by
  induction ws with
  | nil => exact absurd rfl h
  | cons a t ih =>
    cases t with
    | nil => rfl
    | cons b t' =>
      have step : joinL ((a :: b :: t') ++ [w]) = a ++ ' ' :: joinL ((b :: t') ++ [w]) := by
        simp only [List.cons_append]
        exact joinL_cons_cons a b (t' ++ [w])
      rw [step, ih (by simp), joinL_cons_cons]
      simp

theorem wordsAux_nonWs_run (w rest acc : List Char) (h : ∀ c ∈ w, ¬ isWsChar c) :
    wordsAux (w ++ rest) acc = wordsAux rest (w.reverse ++ acc) := by
  induction w generalizing acc with
  | nil => simp
  | cons c w' ih =>
    have hc : ¬ isWsChar c = true := h c (by simp)
    show wordsAux (c :: (w' ++ rest)) acc = _
    simp only [wordsAux, if_neg hc]
    rw [ih _ (fun x hx => h x (by simp [hx]))]
    simp

theorem wordsOfL_joinL (ws : List W) (h : ∀ w ∈ ws, GoodWord w) :
    wordsOfL (joinL ws) = ws := by
  induction ws with
  | nil => rfl
  | cons a t ih =>
    obtain ⟨ha, hgood⟩ := h a (by simp)
    cases t with
    | nil =>
      have h2 := wordsAux_nonWs_run a [] [] hgood
      simp only [List.append_nil] at h2
      show wordsAux a [] = [a]
      rw [h2]
      simp [wordsAux, ha]
    | cons b t' =>
      rw [joinL_cons_cons]
      show wordsAux (a ++ ' ' :: joinL (b :: t')) [] = a :: b :: t'
      rw [wordsAux_nonWs_run a _ [] hgood]
      have hsp : isWsChar ' ' = true := by decide
      simp only [wordsAux, hsp, if_pos, List.append_nil]
      rw [if_neg (by simpa using ha)]
      simp only [List.reverse_reverse]
      rw [show wordsAux (joinL (b :: t')) [] = wordsOfL (joinL (b :: t')) from rfl,
        ih (fun w hw => h w (by simp [hw]))]

theorem wordsAux_good (s acc : List Char) (hacc : ∀ c ∈ acc, ¬ isWsChar c) :
    ∀ w ∈ wordsAux s acc, GoodWord w := by
  induction s generalizing acc with
  | nil =>
    intro w hw
    by_cases h : acc = []
    · simp [wordsAux, h] at hw
    · simp only [wordsAux, if_neg h, List.mem_singleton] at hw
      subst hw
      exact ⟨by simpa using h, fun c hc => hacc c (by simpa using hc)⟩
  | cons c cs ih =>
    intro w hw
    by_cases hws : isWsChar c
    · simp only [wordsAux, if_pos hws] at hw
      by_cases h : acc = []
      · rw [if_pos h] at hw
        exact ih [] (by simp) w hw
      · rw [if_neg h] at hw
        rcases List.mem_cons.mp hw with h1 | h1
        · subst h1
          exact ⟨by simpa using h, fun x hx => hacc x (by simpa using hx)⟩
        · exact ih [] (by simp) w h1
    · simp only [wordsAux, if_neg hws] at hw
      refine ih (c :: acc) ?_ w hw
      intro x hx
      rcases List.mem_cons.mp hx with h1 | h1
      · subst h1; exact hws
      · exact hacc x h1

theorem wordsOfL_good (s : List Char) : ∀ w ∈ wordsOfL s, GoodWord w :=
  wordsAux_good s [] (by simp)

theorem joinL_cons_length (a : W) (l : List W) :
    (joinL (a :: l)).length ≤ a.length + 1 + (joinL l).length := by
  cases l with
  | nil => simp [joinL]
  | cons b t => simp [joinL_cons_cons]; omega

theorem joinL_wordsAux_length (s acc : List Char) :
    (joinL (wordsAux s acc)).length ≤ s.length + acc.length := by
  induction s generalizing acc with
  | nil =>
    by_cases h : acc = []
    · simp [wordsAux, h, joinL]
    · simp [wordsAux, if_neg h, joinL]
  | cons c cs ih =>
    by_cases hws : isWsChar c
    · simp only [wordsAux, if_pos hws]
      by_cases h : acc = []
      · rw [if_pos h]
        have := ih []
        simp only [List.length_nil, Nat.add_zero] at this
        simp only [List.length_cons, h, List.length_nil, Nat.add_zero]
        omega
      · rw [if_neg h]
        have h1 := joinL_cons_length acc.reverse (wordsAux cs [])
        have h2 := ih []
        simp only [List.length_nil, Nat.add_zero] at h2
        simp only [List.length_cons, List.length_reverse] at *
        omega
    · simp only [wordsAux, if_neg hws]
      have := ih (c :: acc)
      simp only [List.length_cons] at *
      omega

theorem joinL_wordsOfL_length (s : List Char) :
    (joinL (wordsOfL s)).length ≤ s.length := by
  have := joinL_wordsAux_length s []
  simpa using this

theorem countTokensL_joinL_wordsOfL (s : List Char) :
    countTokensL (joinL (wordsOfL s)) ≤ countTokensL s :=
  Nat.div_le_div_right (by have := joinL_wordsOfL_length s; omega)

theorem modifyHead_nil_prepend (l : List W) : l.modifyHead (fun f => [] ++ f) = l := by
  cases l <;> simp [List.modifyHead]

theorem modifyHead_self (l : List W) : (l.modifyHead fun f => f) = l := by
  cases l <;> simp [List.modifyHead]

theorem modifyHead_comp (f g : W → W) (l : List W) :
    (l.modifyHead g).modifyHead f = l.modifyHead (fun x => f (g x)) := by
  cases l <;> simp [List.modifyHead]

theorem wordsAux_eq_splitOnP (s acc : List Char) :
    wordsAux s acc =
      ((s.splitOnP isWsChar).modifyHead (fun f => acc.reverse ++ f)).filter (· ≠ []) := by
  induction s generalizing acc with
  | nil =>
    by_cases h : acc = []
    · simp [wordsAux, h, List.splitOnP_nil, List.modifyHead]
    · simp [wordsAux, if_neg h, List.splitOnP_nil, List.modifyHead, List.filter_cons, h]
  | cons c cs ih =>
    by_cases hws : isWsChar c
    · rw [List.splitOnP_cons, if_pos hws]
      simp only [wordsAux, if_pos hws, List.modifyHead, List.append_nil]
      by_cases h : acc = []
      · rw [if_pos h, ih []]
        subst h
        simp [List.filter_cons, modifyHead_nil_prepend, modifyHead_self]
      · rw [if_neg h, ih []]
        simp [List.filter_cons, modifyHead_nil_prepend, modifyHead_self, h]
    · rw [List.splitOnP_cons, if_neg hws]
      simp only [wordsAux, if_neg hws]
      rw [ih (c :: acc), modifyHead_comp]
      have hfun : (fun f => (c :: acc).reverse ++ f) = (fun x : W => acc.reverse ++ (c :: x)) := by
        funext x
        simp
      rw [hfun]

/-- `countWords` agrees with the specification reading "the number of non-empty
whitespace-delimited tokens": splitting on every whitespace character and
discarding empty fields. -/
theorem wordsOfL_eq_splitOnP (s : List Char) :
    wordsOfL s = ((s.splitOnP isWsChar).filter (· ≠ [])) := by
  rw [wordsOfL, wordsAux_eq_splitOnP]
  congr 1
  cases hsp : s.splitOnP isWsChar with
  | nil => exact absurd hsp (List.splitOnP_ne_nil _ _)
  | cons f fs => simp [List.modifyHead]


/-! ## Coverage predicates

`coversFrom seen cs rest` says: the chunk word-lists `cs` cover exactly the
word sequence `rest`, in order — each chunk is an overlap prefix duplicating a
suffix of the words that precede it, followed by the next `k` words of `rest`.
Stripping the overlap prefixes and concatenating therefore reconstructs `rest`
exactly: no word dropped, none reordered. -/

def coversFrom : List W → List (List W) → List W → Prop
  | _, [], rest => rest = []
  | seen, c :: cs, rest =>
      ∃ k pre, pre <:+ seen ∧ k ≤ rest.length ∧ c = pre ++ rest.take k ∧
        coversFrom (seen ++ rest.take k) cs (rest.drop k)

/-- Like `coversFrom`, additionally recording the budget guarantee: every
chunk that contains at least two non-overlap words has token estimate within
`m`. -/
def coversFromB (m : Nat) : List W → List (List W) → List W → Prop
  | _, [], rest => rest = []
  | seen, c :: cs, rest =>
      ∃ k pre, pre <:+ seen ∧ k ≤ rest.length ∧ c = pre ++ rest.take k ∧
        (2 ≤ k → countTokensL (joinL c) ≤ m) ∧
        coversFromB m (seen ++ rest.take k) cs (rest.drop k)

/-- String-level budget/coverage statement over the actual output chunks:
each chunk's word sequence is an overlap prefix plus the next `k` words, and
whenever a chunk holds at least two non-overlap words its `countTokens` is
within the budget `m`. -/
def coversWithinBudget (m : Nat) : List W → List String → List W → Prop
  | _, [], rest => rest = []
  | seen, C :: cs, rest =>
      ∃ k pre, pre <:+ seen ∧ k ≤ rest.length ∧
        wordsOfL C.toList = pre ++ rest.take k ∧
        (2 ≤ k → countTokens C ≤ m) ∧
        coversWithinBudget m (seen ++ rest.take k) cs (rest.drop k)

theorem coversFromB_weaken {m : Nat} :
    ∀ {seen : List W} {cs : List (List W)} {rest : List W},
      coversFromB m seen cs rest → coversFrom seen cs rest := by
  intro seen cs
  induction cs generalizing seen with
  | nil => intro rest h; exact h
  | cons c cs ih =>
    intro rest h
    obtain ⟨k, pre, h1, h2, h3, _, h5⟩ := h
    exact ⟨k, pre, h1, h2, h3, ih h5⟩

theorem coversFromB_append_chunk {m : Nat} :
    ∀ {seen : List W} {cs : List (List W)} {d : List W} (pre extra : List W),
      coversFromB m seen cs d → pre <:+ seen ++ d →
      (2 ≤ extra.length → countTokensL (joinL (pre ++ extra)) ≤ m) →
      coversFromB m seen (cs ++ [pre ++ extra]) (d ++ extra) := by
  intro seen cs
  induction cs generalizing seen with
  | nil =>
    intro d pre extra h hpre hbudget
    have hd : d = [] := h
    subst hd
    refine ⟨extra.length, pre, by simpa using hpre, by simp, by simp, ?_, ?_⟩
    · intro h2
      simpa using hbudget (by simpa using h2)
    · simp [coversFromB]
  | cons c cs ih =>
    intro d pre extra h hpre hbudget
    obtain ⟨k, pre₀, h1, h2, h3, h4, h5⟩ := h
    refine ⟨k, pre₀, h1, by simp; omega, ?_, ?_, ?_⟩
    · rwa [List.take_append_of_le_length h2]
    · intro hk
      exact h4 hk
    · rw [List.take_append_of_le_length h2, List.drop_append_of_le_length h2]
      refine ih pre extra h5 ?_ hbudget
      rwa [List.append_assoc, List.take_append_drop]

theorem coversFromB_good {m : Nat} :
    ∀ {seen : List W} {cs : List (List W)} {rest : List W},
      coversFromB m seen cs rest →
      (∀ x ∈ seen, GoodWord x) → (∀ x ∈ rest, GoodWord x) →
      ∀ c ∈ cs, ∀ x ∈ c, GoodWord x := by
  intro seen cs
  induction cs generalizing seen with
  | nil => intro rest _ _ _ c hc; simp at hc
  | cons c₀ cs ih =>
    intro rest h hseen hrest c hc
    obtain ⟨k, pre, h1, h2, h3, _, h5⟩ := h
    have htake : ∀ x ∈ rest.take k, GoodWord x := fun x hx => hrest x (List.mem_of_mem_take hx)
    rcases List.mem_cons.mp hc with hceq | hmem
    · subst hceq
      rw [h3]
      intro x hx
      rcases List.mem_append.mp hx with hx1 | hx1
      · exact hseen x (h1.subset hx1)
      · exact htake x hx1
    · refine ih h5 ?_ ?_ c hmem
      · intro x hx
        rcases List.mem_append.mp hx with hx1 | hx1
        · exact hseen x hx1
        · exact htake x hx1
      · intro x hx
        exact hrest x (List.mem_of_mem_drop hx)

theorem coversFromB_to_withinBudget {m : Nat} :
    ∀ {seen : List W} {cs : List (List W)} {rest : List W},
      coversFromB m seen cs rest →
      (∀ c ∈ cs, ∀ x ∈ c, GoodWord x) →
      coversWithinBudget m seen (cs.map (fun c => String.mk (joinL c))) rest := by
  intro seen cs
  induction cs generalizing seen with
  | nil => intro rest h _; exact h
  | cons c cs ih =>
    intro rest h hgood
    obtain ⟨k, pre, h1, h2, h3, h4, h5⟩ := h
    refine ⟨k, pre, h1, h2, ?_, ?_, ?_⟩
    · show wordsOfL (joinL c) = pre ++ rest.take k
      rw [wordsOfL_joinL c fun w hw => hgood c (by simp) w hw]
      exact h3
    · exact h4
    · exact ih h5 fun c' hc' => hgood c' (by simp [hc'])

/-! ## The loop invariant of `chunkTextByTokens` -/

theorem chunkStep_break {m ov : Nat} {st : ChunkState} {w : W}
    (h : m < countTokensL (joinL (st.cur ++ [w])) ∧ st.cur ≠ []) :
    chunkStep m ov st w = ⟨st.overlap ++ [w], st.chunks ++ [st.cur], [w]⟩ := by
  simp only [chunkStep, if_pos h]
  simp

theorem chunkStep_extend {m ov : Nat} {st : ChunkState} {w : W}
    (h : ¬ (m < countTokensL (joinL (st.cur ++ [w])) ∧ st.cur ≠ [])) :
    chunkStep m ov st w = ⟨st.cur ++ [w], st.chunks,
      if 50 < (st.overlap ++ [w]).length ∧ ov < countTokensL (joinL (st.overlap ++ [w]))
      then (st.overlap ++ [w]).tail else st.overlap ++ [w]⟩ := by
  simp only [chunkStep, if_neg h]

theorem suffix_append_singleton {t l : List W} (w : W) (h : t <:+ l) :
    t ++ [w] <:+ l ++ [w] := by
  obtain ⟨s, hs⟩ := h
  exact ⟨s, by rw [← hs, List.append_assoc]⟩

/-- Invariant of the word loop after processing the words `p`:
the processed words split into the words `done` already emitted into chunks and
the `curNew` words of the running chunk; the running chunk is an
overlap-duplicated prefix `curPre` (a suffix of `done`) plus `curNew`; the
overlap buffer is a suffix of the processed words; the emitted chunks cover
`done` in the `coversFromB` sense; and the running chunk respects the budget
as soon as it holds at least two new words. -/
def ChunkInv (m : Nat) (p : List W) (st : ChunkState) : Prop :=
  ∃ done curPre curNew,
    p = done ++ curNew ∧
    st.cur = curPre ++ curNew ∧
    curPre <:+ done ∧
    (curNew = [] → curPre = [] ∧ done = []) ∧
    st.overlap <:+ p ∧
    coversFromB m [] st.chunks done ∧
    (2 ≤ curNew.length → countTokensL (joinL st.cur) ≤ m)

theorem chunkInv_init (m : Nat) : ChunkInv m [] ⟨[], [], []⟩ := by
  refine ⟨[], [], [], rfl, rfl, List.nil_suffix, fun _ => ⟨rfl, rfl⟩,
    List.nil_suffix, ?_, by simp⟩
  simp [coversFromB]

theorem chunkInv_step (m ov : Nat) (p : List W) (st : ChunkState) (w : W)
    (hinv : ChunkInv m p st) : ChunkInv m (p ++ [w]) (chunkStep m ov st w) := by
  obtain ⟨done, curPre, curNew, hp, hcur, hpre, hemp, hov, hcov, hbud⟩ := hinv
  by_cases hbr : m < countTokensL (joinL (st.cur ++ [w])) ∧ st.cur ≠ []
  · -- break: emit the running chunk, seed from the overlap buffer
    rw [chunkStep_break hbr]
    have hnew : curNew ≠ [] := by
      intro hne
      obtain ⟨hp1, _⟩ := hemp hne
      exact hbr.2 (by simp [hcur, hp1, hne])
    refine ⟨done ++ curNew, st.overlap, [w], by rw [hp], rfl, by rwa [← hp], by simp, ?_, ?_, ?_⟩
    · exact ⟨p, by simp⟩
    · have := coversFromB_append_chunk curPre curNew hcov
        (by simpa using hpre) (fun h2 => by rw [← hcur]; exact hbud h2)
      rwa [← hcur] at this
    · simp
  · -- extend the running chunk
    rw [chunkStep_extend hbr]
    refine ⟨done, curPre, curNew ++ [w], by rw [hp, List.append_assoc],
      by rw [hcur, List.append_assoc], hpre, by simp, ?_, hcov, ?_⟩
    · by_cases htrim : 50 < (st.overlap ++ [w]).length ∧
          ov < countTokensL (joinL (st.overlap ++ [w]))
      · rw [if_pos htrim]
        exact (List.tail_suffix _).trans (suffix_append_singleton w hov)
      · rw [if_neg htrim]
        exact suffix_append_singleton w hov
    · intro hlen
      rcases (not_and_or.mp hbr) with h1 | h1
      · exact Nat.le_of_not_lt h1
      · have hce : st.cur = [] := not_not.mp h1
        have h2 : curNew = [] := by
          rcases List.append_eq_nil.mp (by rw [← hcur, hce]) with ⟨_, h⟩
          exact h
        rw [h2] at hlen
        simp at hlen

theorem chunkInv_foldl (m ov : Nat) (ws : List W) :
    ∀ (p : List W) (st : ChunkState), ChunkInv m p st →
      ChunkInv m (p ++ ws) (ws.foldl (chunkStep m ov) st) := by
  induction ws with
  | nil => intro p st h; simpa using h
  | cons w ws ih =>
    intro p st h
    have h1 := chunkInv_step m ov p st w h
    have h2 := ih (p ++ [w]) _ h1
    simpa [List.append_assoc] using h2

theorem chunkLoop_inv (m ov : Nat) (ws : List W) :
    ChunkInv m ws (chunkLoop m ov ws) := by
  have := chunkInv_foldl m ov ws [] ⟨[], [], []⟩ (chunkInv_init m)
  simpa [chunkLoop] using this

/-- The word-level chunker covers its input words, with the budget guarantee. -/
theorem chunkWordsByTokens_covers (m ov : Nat) (ws : List W) :
    coversFromB m [] (chunkWordsByTokens m ov ws) ws := by
  obtain ⟨done, curPre, curNew, hp, hcur, hpre, hemp, _, hcov, hbud⟩ := chunkLoop_inv m ov ws
  rw [chunkWordsByTokens]
  by_cases hc : (chunkLoop m ov ws).cur = []
  · rw [if_pos hc]
    have h2 : curNew = [] := by
      rcases List.append_eq_nil.mp (by rw [← hcur, hc]) with ⟨_, h⟩
      exact h
    obtain ⟨_, hdone⟩ := hemp h2
    have hws : ws = [] := by rw [hp, h2, hdone]; rfl
    subst hws
    rw [hdone] at hcov
    exact hcov
  · rw [if_neg hc]
    have := coversFromB_append_chunk curPre curNew hcov
      (by simpa using hpre) (fun h2 => by rw [← hcur]; exact hbud h2)
    rw [← hcur] at this
    rwa [← hp] at this

/-- Every word of the processed input is reachable only through `wordsOfL`, so
all words inside the word-level chunks are good words. -/
theorem chunkWordsByTokens_good (m ov : Nat) (s : List Char) :
    ∀ c ∈ chunkWordsByTokens m ov (wordsOfL s), ∀ x ∈ c, GoodWord x :=
  coversFromB_good (chunkWordsByTokens_covers m ov (wordsOfL s))
    (by simp) (wordsOfL_good s)

/-! ## Claim C1: coverage -/

theorem coversFrom_single (ws : List W) : coversFrom [] [ws] ws := by
  refine ⟨ws.length, [], List.nil_suffix, le_rfl, by simp, ?_⟩
  show ws.drop ws.length = []
  simp

theorem chunkTextL_coverage (s : List Char) (m ov : Nat) :
    coversFrom [] ((chunkTextL s m ov).map wordsOfL) (wordsOfL s) := by
  unfold chunkTextL
  by_cases h0 : s = []
  · rw [if_pos h0]
    subst h0
    show ([] : List W) = []
    rfl
  · rw [if_neg h0]
    by_cases h1 : countTokensL s ≤ m
    · rw [if_pos h1]
      simpa using coversFrom_single (wordsOfL s)
    · rw [if_neg h1]
      by_cases h2 : (chunkWordsByTokens m ov (wordsOfL s)).map joinL = []
      · rw [if_pos h2]
        have hwnil : chunkWordsByTokens m ov (wordsOfL s) = [] := by
          simpa using h2
        have hcov := chunkWordsByTokens_covers m ov (wordsOfL s)
        rw [hwnil] at hcov
        have hnil : wordsOfL s = [] := hcov
        rw [hnil]
        simpa [hnil] using coversFrom_single (wordsOfL s)
      · rw [if_neg h2]
        rw [List.map_map]
        have hmap : (chunkWordsByTokens m ov (wordsOfL s)).map (wordsOfL ∘ joinL) =
            chunkWordsByTokens m ov (wordsOfL s) := by
          have hg := chunkWordsByTokens_good m ov s
          have hcg : (chunkWordsByTokens m ov (wordsOfL s)).map (wordsOfL ∘ joinL)
              = (chunkWordsByTokens m ov (wordsOfL s)).map id :=
            List.map_congr_left (fun c hc => wordsOfL_joinL c (hg c hc))
          rw [hcg, List.map_id]
        rw [hmap]
        exact coversFromB_weaken (chunkWordsByTokens_covers m ov (wordsOfL s))

/-- C1.  For every text `T` and every `maxTokens` and `overlapTokens`, the
chunks returned by `chunkTextByTokens T maxTokens overlapTokens` cover `T`'s
whitespace-delimited word sequence exactly: each chunk's word sequence is an
overlap-duplicated prefix (a suffix of the words that precede it; empty for the
first chunk, since nothing precedes it) followed by the next block of words of
`T`, and stripping those prefixes and concatenating reconstructs `T`'s word
sequence — no word is dropped and no word is reordered. -/
theorem chunkTextByTokens_coverage (T : String) (maxTokens overlapTokens : Nat) :
    coversFrom []
      ((chunkTextByTokens T maxTokens overlapTokens).map (fun C => wordsOfL C.toList))
      (wordsOfL T.toList) := by
  unfold chunkTextByTokens
  rw [List.map_map]
  have : ((fun C : String => wordsOfL C.toList) ∘ String.mk) = wordsOfL := by
    funext l
    rfl
  rw [this]
  exact chunkTextL_coverage T.toList maxTokens overlapTokens

/-! ## Claim C2: budget respect (corrected) -/

theorem coversWithinBudget_single (m : Nat) (C : String) (rest : List W)
    (hw : wordsOfL C.toList = rest) (hbud : 2 ≤ rest.length → countTokens C ≤ m) :
    coversWithinBudget m [] [C] rest := by
  refine ⟨rest.length, [], List.nil_suffix, le_rfl, by simpa using hw, ?_, ?_⟩
  · intro h2
    exact hbud (by simpa using h2)
  · show rest.drop rest.length = []
    simp

/-- C2 (amended).  For every text, the chunker's output decomposes into
overlap-duplicated prefixes plus new words covering the text's word sequence,
such that every chunk holding at least **two** non-overlap words has
`countTokens ≤ maxTokens`.  (Oversize chunks can therefore carry at most one
word beyond their duplicated overlap prefix: either a lone word that alone
exceeds the budget, or an overlap seed plus the single word that triggered the
chunk break.) -/
theorem chunkTextByTokens_budget (T : String) (maxTokens overlapTokens : Nat) :
    coversWithinBudget maxTokens []
      (chunkTextByTokens T maxTokens overlapTokens) (wordsOfL T.toList) := by
  unfold chunkTextByTokens chunkTextL
  by_cases h0 : T.toList = []
  · rw [h0]
    simp only [if_pos rfl, List.map_nil]
    show wordsOfL ([] : List Char) = []
    rfl
  · rw [if_neg h0]
    by_cases h1 : countTokensL T.toList ≤ maxTokens
    · rw [if_pos h1]
      exact coversWithinBudget_single _ (String.mk T.toList) _ rfl (fun _ => h1)
    · rw [if_neg h1]
      by_cases h2 : (chunkWordsByTokens maxTokens overlapTokens (wordsOfL T.toList)).map joinL = []
      · rw [if_pos h2]
        have hwnil : chunkWordsByTokens maxTokens overlapTokens (wordsOfL T.toList) = [] := by
          simpa using h2
        have hcov := chunkWordsByTokens_covers maxTokens overlapTokens (wordsOfL T.toList)
        rw [hwnil] at hcov
        have hnil : wordsOfL T.toList = [] := hcov
        rw [hnil]
        exact coversWithinBudget_single _ (String.mk T.toList) [] hnil (by simp)
      · rw [if_neg h2]
        rw [List.map_map]
        have := coversFromB_to_withinBudget
          (chunkWordsByTokens_covers maxTokens overlapTokens (wordsOfL T.toList))
          (chunkWordsByTokens_good maxTokens overlapTokens T.toList)
        exact this

/-- C2 counterexample.  On `"aaaaaaa bbbbbbb"` with `maxTokens = 3`, the second
chunk `"aaaaaaa bbbbbbb"` estimates 4 tokens > 3 although it has two words and
each of its words alone fits the budget — so the claim's only allowed exception
(a single word that alone exceeds the budget) does not apply. -/
theorem chunkTextByTokens_budget_counterexample :
    chunkTextByTokens "aaaaaaa bbbbbbb" 3 200 = ["aaaaaaa", "aaaaaaa bbbbbbb"] ∧
    ¬ countTokens "aaaaaaa bbbbbbb" ≤ 3 ∧
    (wordsOfL ("aaaaaaa bbbbbbb" : String).toList).length = 2 ∧
    ∀ w ∈ wordsOfL ("aaaaaaa bbbbbbb" : String).toList, countTokensL w ≤ 3 := by
  refine ⟨by decide, by decide, by decide, by decide⟩

/-! ## Claim C3: no-op below budget (corrected: nonempty text) -/

/-- C3 (amended).  For every **non-empty** text `T` with
`countTokens T ≤ maxTokens`, `chunkTextByTokens` returns exactly `[T]` (no
overlap artifacts), and `chunkDocumentByTokens` on any string content within
budget returns `needsChunking = false`, `chunks = [content]`, `chunkCount = 1`.
(The non-emptiness proviso is forced by the `!text` guard: see the
counterexample at `T = ""`.) -/
theorem chunk_noop_below_budget (T : String) (maxTokens overlapTokens : Nat)
    (hT : T ≠ "") (h : countTokens T ≤ maxTokens) :
    chunkTextByTokens T maxTokens overlapTokens = [T] ∧
    chunkDocumentByTokens T maxTokens overlapTokens =
      ⟨[T], countTokens T, 1, false, T⟩ := by
  constructor
  · have h0 : T.toList ≠ [] := by
      intro hc
      apply hT
      have : String.mk T.toList = String.mk [] := by rw [hc]
      simpa using this
    have h' : countTokensL T.toList ≤ maxTokens := h
    unfold chunkTextByTokens chunkTextL
    rw [if_neg h0, if_pos h']
    rfl
  · unfold chunkDocumentByTokens
    rw [if_neg (Nat.not_lt.mpr h)]

theorem chunk_noop_below_budget_witness :
    ("ab" : String) ≠ "" ∧ countTokens "ab" ≤ 10000 ∧
    chunkTextByTokens "ab" 10000 200 = ["ab"] ∧
    chunkDocumentByTokens "ab" 10000 200 = ⟨["ab"], countTokens "ab", 1, false, "ab"⟩ := by
  have h := chunk_noop_below_budget "ab" 10000 200 (by decide) (by decide)
  exact ⟨by decide, by decide, h.1, h.2⟩

/-- C3 counterexample.  The empty string is within every budget, yet
`chunkTextByTokens "" maxTokens overlap` returns `[]`, not `[""]` — the
`!text` guard wins before the small-text early return, so the claim fails at
`T = ""`. -/
theorem chunk_noop_below_budget_counterexample :
    countTokens "" ≤ 10000 ∧
    chunkTextByTokens "" 10000 200 = [] ∧
    chunkTextByTokens "" 10000 200 ≠ [""] := by
  refine ⟨by decide, by decide, by decide⟩

/-! ## Claim C4: the overlap buffer bound (corrected) -/

set_option maxRecDepth 2000 in
/-- C4 counterexample.  Feeding the 51-word text `"a a … a"` (51 single-letter
words) through the word loop with `maxTokens = 50`, `overlapTokens = 200`
leaves **51** words in the overlap buffer: the oldest word is *not* dropped
when the count exceeds 50, because the buffer's token estimate (26) does not
exceed `overlapTokens` — the 50-word cap claimed by the spec does not hold. -/
theorem overlap_buffer_counterexample :
    (chunkLoop 50 200
        (wordsOfL (String.mk (joinL (List.replicate 51 ['a']))).toList)).overlap.length
      = 51 ∧ ¬ (51 ≤ 50) := by
  refine ⟨by decide, by decide⟩

/-- C4 (amended).  After each word is appended, the oldest tracked word is
dropped only when the tracked-word count exceeds 50 **and** the buffer's joined
token estimate exceeds `overlapTokens`; if either part fails the buffer keeps
all words (so its size is *not* capped at 50 in general).  The buffer grows by
at most one word per processed word, and always holds a suffix of the words
processed so far (so an overlap prefix duplicated into the next chunk
duplicates the immediately preceding words). -/
theorem overlap_buffer_amended (m ov : Nat) (ws : List W) (st : ChunkState) (w : W) :
    (chunkLoop m ov ws).overlap <:+ ws ∧
    (chunkStep m ov st w).overlap.length ≤ st.overlap.length + 1 ∧
    (¬ (m < countTokensL (joinL (st.cur ++ [w])) ∧ st.cur ≠ []) →
      (¬ (50 < (st.overlap ++ [w]).length ∧ ov < countTokensL (joinL (st.overlap ++ [w]))) →
        (chunkStep m ov st w).overlap = st.overlap ++ [w]) ∧
      (50 < (st.overlap ++ [w]).length →
        ov < countTokensL (joinL (st.overlap ++ [w])) →
        (chunkStep m ov st w).overlap = st.overlap.tail ++ [w])) := by
  refine ⟨?_, ?_, ?_⟩
  · obtain ⟨_, _, _, _, _, _, _, hov, _, _⟩ := chunkLoop_inv m ov ws
    exact hov
  · by_cases hbr : m < countTokensL (joinL (st.cur ++ [w])) ∧ st.cur ≠ []
    · rw [chunkStep_break hbr]
      simp
    · rw [chunkStep_extend hbr]
      by_cases htrim : 50 < (st.overlap ++ [w]).length ∧
          ov < countTokensL (joinL (st.overlap ++ [w]))
      · rw [if_pos htrim]
        simp only
        have := List.length_tail (st.overlap ++ [w])
        simp only [List.length_append, List.length_singleton] at *
        omega
      · rw [if_neg htrim]
        simp
  · intro hbr
    constructor
    · intro htrim
      rw [chunkStep_extend hbr, if_neg htrim]
    · intro hlen htok
      rw [chunkStep_extend hbr, if_pos ⟨hlen, htok⟩]
      have hne : st.overlap ≠ [] := by
        intro hc
        rw [hc] at hlen
        simp at hlen
      obtain ⟨a, t, hcons⟩ := List.exists_cons_of_ne_nil hne
      rw [hcons]
      rfl

theorem overlap_buffer_amended_witness :
    (chunkStep 50 200 ⟨[['a']], [], List.replicate 51 ['a']⟩ ['a']).overlap
      = List.replicate 51 ['a'] ++ [['a']] ∧
    (List.replicate 51 ['a'] ++ [['a']] : List W).length = 52 := by
  have h := overlap_buffer_amended 50 200 [] ⟨[['a']], [], List.replicate 51 ['a']⟩ ['a']
  exact ⟨(h.2.2 (by decide)).1 (by decide), by decide⟩

/-! ## Claim C8: text metrics -/

/-- C8.  `countTokens` is exactly the ceiling of `length / 4` (stated by the
standard ceiling inequalities); `countWords` counts the non-empty
whitespace-delimited tokens (splitting at every whitespace character and
discarding empty fields); `analyzeText` returns that pair; non-string input
and the empty string both yield `(0, 0)`.  Counts are `Nat`, hence
non-negative integers by type. -/
theorem textAnalysis_spec (s : String) :
    s.length ≤ 4 * countTokens s ∧
    4 * countTokens s < s.length + 4 ∧
    countWords s = ((s.toList.splitOnP isWsChar).filter (· ≠ [])).length ∧
    analyzeText s = ⟨countWords s, countTokens s⟩ ∧
    analyzeTextJs JsInput.nonString = ⟨0, 0⟩ ∧
    analyzeText "" = ⟨0, 0⟩ := by
  refine ⟨?_, ?_, ?_, rfl, rfl, rfl⟩
  · have h : countTokens s = (s.length + 3) / 4 := rfl
    omega
  · have h : countTokens s = (s.length + 3) / 4 := rfl
    omega
  · unfold countWords
    rw [wordsOfL_eq_splitOnP]

/-! ## Claim C9: retry chunk budget -/

/-- C9.  The budget passed to `chunkDocumentByTokens` on a chunked retry is
`max (floor (countTokens fileContent / k)) 500`; it is never below the
500-token floor; and a 12,500-token document split into 5 parts gets a budget
of exactly 2500.  (`k ≥ 1` reflects the UI's choices 2,3,5,10,15,20.) -/
theorem retryTargetTokens_spec (fileContent : String) (k : Nat) (_hk : 1 ≤ k) :
    retryTargetTokens fileContent k = max (countTokens fileContent / k) 500 ∧
    500 ≤ retryTargetTokens fileContent k ∧
    (countTokens fileContent = 12500 → k = 5 → retryTargetTokens fileContent k = 2500) := by
  refine ⟨rfl, le_max_right _ _, ?_⟩
  intro h1 h2
  rw [retryTargetTokens, h1, h2]
  decide

theorem countTokens_mk (l : List Char) : countTokens (String.mk l) = (l.length + 3) / 4 := rfl

theorem retryTargetTokens_spec_witness :
    (1 ≤ 5 ∧ countTokens (String.mk (List.replicate 50000 'a')) = 12500) ∧
    retryTargetTokens (String.mk (List.replicate 50000 'a')) 5 = 2500 := by
  have hct : countTokens (String.mk (List.replicate 50000 'a')) = 12500 := by
    rw [countTokens_mk, List.length_replicate]
  have h := retryTargetTokens_spec (String.mk (List.replicate 50000 'a')) 5 (by decide)
  exact ⟨⟨by decide, hct⟩, h.2.2 hct rfl⟩

/-! ## Claim C10: the empty-input disagreement -/

/-- C10.  At the empty-input edge the two entry points disagree:
`chunkTextByTokens` returns `[]` for empty-string (and non-string) input,
while `chunkDocumentByTokens` on empty content returns a plan with one empty
fragment (`chunks = [""]`, `chunkCount = 1`, `needsChunking = false`). -/
theorem empty_input_boundary (maxTokens overlapTokens : Nat) :
    chunkTextByTokens "" maxTokens overlapTokens = [] ∧
    chunkTextByTokensJs JsInput.nonString maxTokens overlapTokens = [] ∧
    chunkDocumentByTokens "" maxTokens overlapTokens = ⟨[""], 0, 1, false, ""⟩ ∧
    ([] : List String) ≠ [""] := by
  refine ⟨?_, rfl, ?_, by simp⟩
  · have h0 : ("" : String).toList = [] := rfl
    unfold chunkTextByTokens chunkTextL
    rw [if_pos h0]
    rfl
  · unfold chunkDocumentByTokens
    rw [if_neg (by simp [countTokens, countTokensL])]
    rfl

/-! ## Summarization orchestration (`groq-summary.service.ts`)

The two external Groq chat calls are abstracted as oracles: `call i c` is the
completion request that `processDocumentChunk` issues for chunk `i` with
content `c`, and `merge ss` is the completion request that `combineSummaries`
issues for the part summaries `ss` (the prompt lists them in the given order).
`summarizeDocument` additionally returns the argument passed to the merge
call, `none` when no merge call was issued, so that the call structure is
observable in the model. -/

/-- Response record of `summarizeDocument` (`SummaryResponse`). -/
structure SummaryResponse where
  filename : String
  summary : String
  chunkCount : Nat
  wordCount : Nat
  tokenCount : Nat
  success : Bool
  error : Option String
deriving DecidableEq, Repr

/-- `processDocumentChunk` (lines 37–98): one external call per chunk; a
failure is re-thrown as `Failed to process chunk: …`. -/
def processDocumentChunk (call : Nat → String → Except String String)
    (i : Nat) (content : String) : Except String String :=
  match call i content with
  | .ok s => .ok s
  | .error e => .error ("Failed to process chunk: " ++ e)

/-- `combineSummaries` (lines 105–159): one external call receiving all part
summaries in order; a failure is re-thrown as `Failed to combine summaries: …`. -/
def combineSummaries (merge : List String → Except String String)
    (summaries : List String) : Except String String :=
  match merge summaries with
  | .ok s => .ok s
  | .error e => .error ("Failed to combine summaries: " ++ e)

/-- The sequential per-chunk loop of `summarizeDocument` (lines 215–234):
chunks are processed in index order starting at `i`; the first failure aborts
the loop and propagates its error. -/
def processChunksSeq (call : Nat → String → Except String String) :
    Nat → List String → Except String (List String)
  | _, [] => .ok []
  | i, c :: rest =>
    match processDocumentChunk call i c with
    | .error e => .error e
    | .ok s =>
      match processChunksSeq call (i + 1) rest with
      | .error e => .error e
      | .ok ss => .ok (s :: ss)

/-- `summarizeDocument` (lines 164–268) for a document given as its chunk
contents (one element for a whole document, several for a pre-chunked one).
The `try/catch` is modelled by matching on the `Except` results: any failure
yields the failure response `success := false` with `chunkCount`, `wordCount`
and `tokenCount` 0 and the error message.  The second component records the
argument of the merge call (`none` if the merge call was never issued). -/
def summarizeDocument (call : Nat → String → Except String String)
    (merge : List String → Except String String)
    (filename : String) (chunks : List String) :
    SummaryResponse × Option (List String) :=
  let totalWordCount := (chunks.map countWords).sum
  let totalTokenCount := (chunks.map countTokens).sum
  match chunks with
  | [c] =>
    match processDocumentChunk call 0 c with
    | .ok s => (⟨filename, s, 1, totalWordCount, totalTokenCount, true, none⟩, none)
    | .error e => (⟨filename, "", 0, 0, 0, false, some e⟩, none)
  | _ =>
    match processChunksSeq call 0 chunks with
    | .error e => (⟨filename, "", 0, 0, 0, false, some e⟩, none)
    | .ok ss =>
      match combineSummaries merge ss with
      | .ok final =>
        (⟨filename, final, chunks.length, totalWordCount, totalTokenCount, true, none⟩, some ss)
      | .error e => (⟨filename, "", 0, 0, 0, false, some e⟩, some ss)

theorem processChunksSeq_error (call : Nat → String → Except String String) :
    ∀ (cs : List String) (off i : Nat) (e : String) (hi : i < cs.length),
      (∀ j (hj : j < cs.length), j < i → ∃ s, call (off + j) (cs.get ⟨j, hj⟩) = .ok s) →
      call (off + i) (cs.get ⟨i, hi⟩) = .error e →
      processChunksSeq call off cs = .error ("Failed to process chunk: " ++ e) := by
  intro cs
  induction cs with
  | nil => intro off i e hi; simp at hi
  | cons c rest ih =>
    intro off i e hi hok herr
    cases i with
    | zero =>
      have h0 : call off c = .error e := by simpa using herr
      simp only [processChunksSeq, processDocumentChunk, h0]
    | succ i' =>
      obtain ⟨s0, hs0⟩ := hok 0 (by simp) (Nat.succ_pos i')
      have hs0' : call off c = .ok s0 := by simpa using hs0
      have hrec := ih (off + 1) i' e (by simpa using hi)
        (fun j hj hji => by
          have := hok (j + 1) (by simpa using hj) (by omega)
          simpa [Nat.add_assoc, Nat.add_comm 1 j] using this)
        (by
          have : off + 1 + i' = off + (i' + 1) := by omega
          rw [this]
          simpa using herr)
      simp only [processChunksSeq, processDocumentChunk, hs0', hrec]

theorem processChunksSeq_ok (call : Nat → String → Except String String)
    (g : Nat → String) :
    ∀ (cs : List String) (off : Nat),
      (∀ j (hj : j < cs.length), call (off + j) (cs.get ⟨j, hj⟩) = .ok (g (off + j))) →
      processChunksSeq call off cs = .ok ((List.range cs.length).map (fun j => g (off + j))) := by
  intro cs
  induction cs with
  | nil => intro off _; simp [processChunksSeq]
  | cons c rest ih =>
    intro off hok
    have h0 : call off c = .ok (g off) := by simpa using hok 0 (by simp)
    have hrec := ih (off + 1) (fun j hj => by
      have := hok (j + 1) (by simpa using hj)
      have harith : off + (j + 1) = off + 1 + j := by omega
      rw [harith] at this
      simpa using this)
    simp only [processChunksSeq, processDocumentChunk, h0, hrec, List.length_cons]
    have htail : List.map (fun j => g (off + 1 + j)) (List.range rest.length)
        = List.map ((fun j => g (off + j)) ∘ Nat.succ) (List.range rest.length) := by
      apply List.map_congr_left
      intro a _
      show g (off + 1 + a) = g (off + (a + 1))
      congr 1
      omega
    rw [List.range_succ_eq_map, List.map_cons, List.map_map, ← htail]
    simp

/-- C6.  If the call for any one chunk of a multi-chunk document fails (all
earlier chunks having succeeded, since processing is sequential), then
`summarizeDocument` returns the failed response — `success = false` carrying
the triggering error message — the merge call is never issued, and no partial
summaries are combined. -/
theorem summarizeDocument_chunk_failure
    (call : Nat → String → Except String String)
    (merge : List String → Except String String)
    (filename : String) (chunks : List String) (i : Nat) (e : String)
    (hn : 2 ≤ chunks.length) (hi : i < chunks.length)
    (hok : ∀ j (hj : j < chunks.length), j < i → ∃ s, call j (chunks.get ⟨j, hj⟩) = .ok s)
    (herr : call i (chunks.get ⟨i, hi⟩) = .error e) :
    summarizeDocument call merge filename chunks =
      (⟨filename, "", 0, 0, 0, false, some ("Failed to process chunk: " ++ e)⟩, none) := by
  have hseq := processChunksSeq_error call chunks 0 i e hi
    (fun j hj hji => by simpa using hok j hj hji)
    (by simpa using herr)
  rcases chunks with _ | ⟨c1, chunks1⟩
  · simp at hn
  rcases chunks1 with _ | ⟨c2, t⟩
  · simp at hn
  simp only [summarizeDocument, hseq]

theorem summarizeDocument_chunk_failure_witness :
    summarizeDocument
      (fun i _ => if i = 1 then .error "boom" else .ok "part")
      (fun _ => .ok "merged") "doc.pdf" ["a", "b", "c"] =
    (⟨"doc.pdf", "", 0, 0, 0, false, some ("Failed to process chunk: " ++ "boom")⟩, none) := by
  exact summarizeDocument_chunk_failure _ _ _ _ 1 "boom" (by decide) (by decide)
    (fun j hj hji => ⟨"part", by
      have hj0 : j = 0 := by omega
      subst hj0
      rfl⟩)
    (by rfl)

/-- C7.  When every chunk call succeeds: for a multi-chunk document the merge
call receives exactly the partial summaries of chunks `0 … n-1` in original
index order, and (when the merge succeeds) its result becomes the final
summary with `chunkCount = n`; for a single-chunk document that chunk's
partial result is returned as the final summary and no merge call is issued. -/
theorem summarizeDocument_merge_order
    (call : Nat → String → Except String String)
    (merge : List String → Except String String)
    (filename : String) (chunks : List String) (g : Nat → String)
    (hok : ∀ j (hj : j < chunks.length), call j (chunks.get ⟨j, hj⟩) = .ok (g j)) :
    (2 ≤ chunks.length →
      (summarizeDocument call merge filename chunks).2 =
        some ((List.range chunks.length).map g) ∧
      ∀ final, merge ((List.range chunks.length).map g) = .ok final →
        summarizeDocument call merge filename chunks =
          (⟨filename, final, chunks.length, (chunks.map countWords).sum,
            (chunks.map countTokens).sum, true, none⟩,
           some ((List.range chunks.length).map g))) ∧
    (∀ c, chunks = [c] →
      summarizeDocument call merge filename chunks =
        (⟨filename, g 0, 1, (chunks.map countWords).sum,
          (chunks.map countTokens).sum, true, none⟩, none)) := by
  have hseq := processChunksSeq_ok call g chunks 0
    (fun j hj => by simpa using hok j hj)
  have hmapz : (List.range chunks.length).map (fun j => g (0 + j)) =
      (List.range chunks.length).map g := by
    apply List.map_congr_left
    intro a _
    simp
  rw [hmapz] at hseq
  constructor
  · intro hn
    rcases hch : chunks with _ | ⟨c1, chunks1⟩
    · rw [hch] at hn; simp at hn
    rcases hch1 : chunks1 with _ | ⟨c2, t⟩
    · rw [hch, hch1] at hn; simp at hn
    subst hch1
    subst hch
    constructor
    · simp only [summarizeDocument, hseq, combineSummaries]
      rcases hm : merge ((List.range (c1 :: c2 :: t).length).map g) with e | s <;>
        simp [hm]
    · intro final hfin
      simp only [summarizeDocument, hseq, combineSummaries, hfin]
  · intro c hc
    subst hc
    have h0 : call 0 c = .ok (g 0) := by simpa using hok 0 (by simp)
    simp only [summarizeDocument, processDocumentChunk, h0]

theorem summarizeDocument_merge_order_witness :
    (summarizeDocument
        (fun i _ => .ok (if i = 0 then "p0" else if i = 1 then "p1" else "p2"))
        (fun ss => .ok (String.intercalate "|" ss)) "doc.pdf" ["a", "b", "c"]).2 =
      some ["p0", "p1", "p2"] ∧
    summarizeDocument
        (fun i _ => .ok (if i = 0 then "p0" else if i = 1 then "p1" else "p2"))
        (fun _ => .ok "merged") "doc.pdf" ["solo"] =
      (⟨"doc.pdf", "p0", 1, countWords "solo", countTokens "solo", true, none⟩, none) := by
  constructor
  · have h := summarizeDocument_merge_order
      (fun i _ => .ok (if i = 0 then "p0" else if i = 1 then "p1" else "p2"))
      (fun ss => .ok (String.intercalate "|" ss)) "doc.pdf" ["a", "b", "c"]
      (fun i => if i = 0 then "p0" else if i = 1 then "p1" else "p2")
      (fun j hj => rfl)
    have h2 := (h.1 (by decide)).1
    rw [h2]
    decide
  · have h := summarizeDocument_merge_order
      (fun i _ => .ok (if i = 0 then "p0" else if i = 1 then "p1" else "p2"))
      (fun _ => .ok "merged") "doc.pdf" ["solo"]
      (fun i => if i = 0 then "p0" else if i = 1 then "p1" else "p2")
      (fun j hj => rfl)
    have h2 := h.2 "solo" rfl
    rw [h2]
    simp

/-! ## Claim C5: monotonicity of chunk count

Proved by coupling the two loop runs (budgets `m1 ≥ m2`, same `overlapTokens`)
over the same word stream.  The coupling invariant `PairInv`:
the smaller budget has emitted at least as many chunks; at equal counts the
larger budget has at least as much room (measured in joined characters, the
exact currency of the break test `countTokens(test) > maxTokens ⟺
length > 4·maxTokens`) and its overlap buffer is a suffix of the smaller
budget's buffer; when the smaller budget is exactly one chunk ahead, the large
budget's room exceeds either the small budget's current chunk measured against
the large budget's *buffer* (the seed of its next chunk) or against its
current chunk. -/

theorem countTokensL_lt_iff (m : Nat) (s : List Char) :
    m < countTokensL s ↔ 4 * m < s.length := by
  unfold countTokensL
  omega

theorem joinL_singleton (w : W) : joinL [w] = w := rfl

theorem joinL_length_cons_ge (a : W) (l : List W) :
    (joinL l).length ≤ (joinL (a :: l)).length := by
  cases l with
  | nil => simp [joinL]
  | cons b t =>
    rw [joinL_cons_cons]
    simp
    omega

theorem joinL_length_suffix_le (x y : List W) (h : x <:+ y) :
    (joinL x).length ≤ (joinL y).length := by
  obtain ⟨t, rfl⟩ := h
  induction t with
  | nil => simp
  | cons a t ih => exact ih.trans (joinL_length_cons_ge a (t ++ x))

theorem joinL_length_append_singleton (x : List W) (w : W) :
    (joinL (x ++ [w])).length =
      if x = [] then w.length else (joinL x).length + w.length + 1 := by
  by_cases hx : x = []
  · subst hx; simp [joinL]
  · rw [if_neg hx, joinL_append_singleton x w hx]
    simp
    omega

theorem joinL_length_append_singleton_le (x : List W) (w : W) :
    (joinL (x ++ [w])).length ≤ (joinL x).length + w.length + 1 := by
  rw [joinL_length_append_singleton]
  by_cases hx : x = [] <;> simp [hx]
  omega

theorem joinL_length_append_singleton_ge (x : List W) (w : W) :
    w.length ≤ (joinL (x ++ [w])).length :=
  joinL_length_suffix_le [w] (x ++ [w]) ⟨x, rfl⟩

theorem tail_suffix_tail {x y : List W} (h : x <:+ y) : x.tail <:+ y.tail := by
  obtain ⟨t, rfl⟩ := h
  cases x with
  | nil => simp
  | cons a x' =>
    cases t with
    | nil => simp
    | cons b t' =>
      simp only [List.cons_append, List.tail_cons]
      exact (List.tail_suffix (a :: x')).trans ⟨t', rfl⟩

theorem suffix_tail_of_lt {x y : List W} (h : x <:+ y) (hlt : x.length < y.length) :
    x <:+ y.tail := by
  obtain ⟨t, rfl⟩ := h
  cases t with
  | nil => simp at hlt
  | cons b t' => exact ⟨t', rfl⟩

theorem suffix_length_lt_of_ne {x y : List W} (h : x <:+ y) (hne : x ≠ y) :
    x.length < y.length := by
  obtain ⟨t, rfl⟩ := h
  cases t with
  | nil => simp at hne
  | cons b t' => simp; omega

/-- Coupling invariant between the run with the larger budget `m1` (`st1`) and
the run with the smaller budget `m2` (`st2`) after both processed the words
`p`.  Lengths of joined word lists are the exact currency of the break test. -/
def PairInv (m1 m2 : Nat) (p : List W) (st1 st2 : ChunkState) : Prop :=
  (st1.cur = [] ↔ p = []) ∧
  (st2.cur = [] ↔ p = []) ∧
  (st1.overlap = [] ↔ p = []) ∧
  (st2.overlap = [] ↔ p = []) ∧
  (p = [] → st1.chunks = [] ∧ st2.chunks = []) ∧
  st1.chunks.length ≤ st2.chunks.length ∧
  (st1.chunks.length = st2.chunks.length →
    4 * m2 + (joinL st1.cur).length ≤ 4 * m1 + (joinL st2.cur).length ∧
    st1.overlap <:+ st2.overlap) ∧
  (st2.chunks.length = st1.chunks.length + 1 →
    4 * m2 + (joinL st1.overlap).length ≤ 4 * m1 + (joinL st2.cur).length ∨
    4 * m2 + (joinL st1.cur).length ≤ 4 * m1 + (joinL st2.cur).length)

theorem pairInv_init (m1 m2 : Nat) (hm : m2 ≤ m1) :
    PairInv m1 m2 [] ⟨[], [], []⟩ ⟨[], [], []⟩ := by
  refine ⟨by simp, by simp, by simp, by simp, fun _ => ⟨rfl, rfl⟩, le_rfl, ?_, ?_⟩
  · intro _
    exact ⟨by simp [joinL]; omega, List.nil_suffix⟩
  · intro h
    simp at h

theorem trimBuf_ne_nil (ov : Nat) (b : List W) (w : W) :
    (if 50 < (b ++ [w]).length ∧ ov < countTokensL (joinL (b ++ [w]))
     then (b ++ [w]).tail else b ++ [w]) ≠ [] := by
  by_cases htr : 50 < (b ++ [w]).length ∧ ov < countTokensL (joinL (b ++ [w]))
  · rw [if_pos htr]
    intro h
    have h2 : (b ++ [w]).length - 1 = 0 := by
      rw [← List.length_tail, h]
      rfl
    have hlen := htr.1
    omega
  · rw [if_neg htr]
    simp

theorem pairInv_step (m1 m2 ov : Nat) (hm : m2 ≤ m1) (p : List W)
    (st1 st2 : ChunkState) (w : W) (hinv : PairInv m1 m2 p st1 st2) :
    PairInv m1 m2 (p ++ [w]) (chunkStep m1 ov st1 w) (chunkStep m2 ov st2 w) := by
  obtain ⟨hc1e, hc2e, hf1e, hf2e, hpe, hd, heq, hone⟩ := hinv
  by_cases br1 : m1 < countTokensL (joinL (st1.cur ++ [w])) ∧ st1.cur ≠ []
  · -- the large budget breaks, hence p ≠ []
    have hp : p ≠ [] := fun h => br1.2 (hc1e.mpr h)
    have hc1 : st1.cur ≠ [] := br1.2
    have hc2 : st2.cur ≠ [] := fun h => hp (hc2e.mp h)
    have hf1 : st1.overlap ≠ [] := fun h => hp (hf1e.mp h)
    have hf2 : st2.overlap ≠ [] := fun h => hp (hf2e.mp h)
    have hbrlen1 : 4 * m1 < (joinL st1.cur).length + w.length + 1 := by
      have := (countTokensL_lt_iff m1 (joinL (st1.cur ++ [w]))).mp br1.1
      rwa [joinL_length_append_singleton, if_neg hc1] at this
    by_cases br2 : m2 < countTokensL (joinL (st2.cur ++ [w])) ∧ st2.cur ≠ []
    · -- (break, break)
      rw [chunkStep_break br1, chunkStep_break br2]
      refine ⟨by simp, by simp, by simp, by simp, by simp, by simp; omega, ?_, ?_⟩
      · -- both counts grew by one: equal counts ↔ equal before
        intro hlen
        simp only [List.length_append, List.length_singleton] at hlen
        obtain ⟨hA, hsfx⟩ := heq (by omega)
        constructor
        · have hmono := joinL_length_suffix_le _ _ (suffix_append_singleton w hsfx)
          simp only
          omega
        · simp only
          exact List.suffix_refl [w]
      · -- the small run was one ahead and stays one ahead
        intro hlen
        simp only [List.length_append, List.length_singleton] at hlen
        left
        have hge := joinL_length_append_singleton_ge st2.overlap w
        simp only [joinL_singleton]
        omega
    · -- (break, extend): the small run must already be ahead
      have hc2len : (joinL st2.cur).length + w.length + 1 ≤ 4 * m2 := by
        rcases not_and_or.mp br2 with h | h
        · have := Nat.le_of_not_lt h
          have h2 := (countTokensL_lt_iff m2 (joinL (st2.cur ++ [w]))).not.mp (Nat.not_lt.mpr this)
          rw [joinL_length_append_singleton, if_neg hc2] at h2
          omega
        · exact absurd (not_not.mp h) hc2
      have hahead : st1.chunks.length < st2.chunks.length := by
        rcases Nat.lt_or_ge st1.chunks.length st2.chunks.length with h | h
        · exact h
        · exfalso
          obtain ⟨hA, _⟩ := heq (Nat.le_antisymm hd h)
          omega
      rw [chunkStep_break br1, chunkStep_extend br2]
      refine ⟨by simp, by simp, by simp, ?_, by simp, by simp; omega, ?_, ?_⟩
      · -- the trimmed small-run buffer stays non-empty
        constructor
        · intro h
          exact absurd h (trimBuf_ne_nil ov st2.overlap w)
        · intro h
          simp at h
      · -- equal counts afterwards means the small run was exactly one ahead
        intro hlen
        simp only [List.length_append, List.length_singleton] at hlen
        have hone' := hone (by omega)
        have hdisj1 : 4 * m2 + (joinL st1.overlap).length ≤ 4 * m1 + (joinL st2.cur).length := by
          rcases hone' with h | h
          · exact h
          · exfalso
            omega
        constructor
        · simp only
          rw [joinL_length_append_singleton, if_neg hf1,
            joinL_length_append_singleton, if_neg hc2]
          omega
        · simp only
          by_cases htr : 50 < (st2.overlap ++ [w]).length ∧
              ov < countTokensL (joinL (st2.overlap ++ [w]))
          · rw [if_pos htr]
            rcases hfe : st2.overlap with _ | ⟨a, t⟩
            · exact absurd hfe hf2
            · simp only [List.cons_append, List.tail_cons]
              exact ⟨t, rfl⟩
          · rw [if_neg htr]
            exact ⟨st2.overlap, rfl⟩
      · -- the small run two ahead before, one ahead now
        intro hlen
        simp only [List.length_append, List.length_singleton] at hlen
        left
        have hge := joinL_length_append_singleton_ge st2.cur w
        simp only [joinL_singleton]
        omega
  · -- the large budget extends
    by_cases br2 : m2 < countTokensL (joinL (st2.cur ++ [w])) ∧ st2.cur ≠ []
    · -- (extend, break)
      have hp : p ≠ [] := fun h => br2.2 (hc2e.mpr h)
      have hc1 : st1.cur ≠ [] := fun h => hp (hc1e.mp h)
      have hf1 : st1.overlap ≠ [] := fun h => hp (hf1e.mp h)
      have hf2 : st2.overlap ≠ [] := fun h => hp (hf2e.mp h)
      rw [chunkStep_extend br1, chunkStep_break br2]
      refine ⟨by simp, by simp, ?_, by simp, by simp, by simp; omega, ?_, ?_⟩
      · constructor
        · intro h
          exact absurd h (trimBuf_ne_nil ov st1.overlap w)
        · intro h
          simp at h
      · -- equal counts afterwards: impossible, the small run pulled ahead
        intro hlen
        simp only [List.length_append, List.length_singleton] at hlen
        omega
      · -- the small run is now exactly one ahead: seed relation from the suffix
        intro hlen
        simp only [List.length_append, List.length_singleton] at hlen
        obtain ⟨_, hsfx⟩ := heq (by omega)
        left
        have h1 : (joinL (if 50 < (st1.overlap ++ [w]).length ∧
            ov < countTokensL (joinL (st1.overlap ++ [w]))
            then (st1.overlap ++ [w]).tail else st1.overlap ++ [w])).length ≤
            (joinL (st1.overlap ++ [w])).length := by
          by_cases htr : 50 < (st1.overlap ++ [w]).length ∧
              ov < countTokensL (joinL (st1.overlap ++ [w]))
          · rw [if_pos htr]
            exact joinL_length_suffix_le _ _ (List.tail_suffix _)
          · rw [if_neg htr]
        have h2 : (joinL (st1.overlap ++ [w])).length ≤ (joinL (st2.overlap ++ [w])).length :=
          joinL_length_suffix_le _ _ (suffix_append_singleton w hsfx)
        simp only
        omega
    · -- (extend, extend)
      rw [chunkStep_extend br1, chunkStep_extend br2]
      refine ⟨by simp, by simp, ?_, ?_, by simp, by simpa using hd, ?_, ?_⟩
      · constructor
        · intro h
          exact absurd h (trimBuf_ne_nil ov st1.overlap w)
        · intro h
          simp at h
      · constructor
        · intro h
          exact absurd h (trimBuf_ne_nil ov st2.overlap w)
        · intro h
          simp at h
      · -- equal counts: room relation and buffer suffix both persist
        intro hlen
        simp only at hlen
        obtain ⟨hA, hsfx⟩ := heq hlen
        constructor
        · simp only
          by_cases hpnil : p = []
          · have h1 : st1.cur = [] := hc1e.mpr hpnil
            have h2 : st2.cur = [] := hc2e.mpr hpnil
            rw [h1, h2] at hA ⊢
            simp only [List.nil_append, joinL_singleton]
            omega
          · have h1 : st1.cur ≠ [] := fun h => hpnil (hc1e.mp h)
            have h2 : st2.cur ≠ [] := fun h => hpnil (hc2e.mp h)
            rw [joinL_length_append_singleton, if_neg h1,
              joinL_length_append_singleton, if_neg h2]
            omega
        · simp only
          have hsw : st1.overlap ++ [w] <:+ st2.overlap ++ [w] :=
            suffix_append_singleton w hsfx
          by_cases t1 : 50 < (st1.overlap ++ [w]).length ∧
              ov < countTokensL (joinL (st1.overlap ++ [w]))
          · rw [if_pos t1]
            by_cases t2 : 50 < (st2.overlap ++ [w]).length ∧
                ov < countTokensL (joinL (st2.overlap ++ [w]))
            · rw [if_pos t2]
              exact tail_suffix_tail hsw
            · rw [if_neg t2]
              exact (List.tail_suffix _).trans hsw
          · rw [if_neg t1]
            by_cases t2 : 50 < (st2.overlap ++ [w]).length ∧
                ov < countTokensL (joinL (st2.overlap ++ [w]))
            · rw [if_pos t2]
              have hne : st1.overlap ≠ st2.overlap := by
                intro hcontra
                rw [hcontra] at t1
                exact t1 t2
              have hlt : (st1.overlap ++ [w]).length < (st2.overlap ++ [w]).length := by
                have := suffix_length_lt_of_ne hsfx hne
                simp
                omega
              exact suffix_tail_of_lt hsw hlt
            · rw [if_neg t2]
              exact hsw
      · -- one-ahead: both disjuncts persist under the shared extension
        intro hlen
        simp only at hlen
        have hone' := hone hlen
        have hp : p ≠ [] := by
          intro hpnil
          obtain ⟨_, h2⟩ := hpe hpnil
          rw [h2] at hlen
          simp at hlen
        have hc1 : st1.cur ≠ [] := fun h => hp (hc1e.mp h)
        have hc2 : st2.cur ≠ [] := fun h => hp (hc2e.mp h)
        have hf1 : st1.overlap ≠ [] := fun h => hp (hf1e.mp h)
        rcases hone' with h | h
        · left
          have htrim : (joinL (if 50 < (st1.overlap ++ [w]).length ∧
              ov < countTokensL (joinL (st1.overlap ++ [w]))
              then (st1.overlap ++ [w]).tail else st1.overlap ++ [w])).length ≤
              (joinL (st1.overlap ++ [w])).length := by
            by_cases htr : 50 < (st1.overlap ++ [w]).length ∧
                ov < countTokensL (joinL (st1.overlap ++ [w]))
            · rw [if_pos htr]
              exact joinL_length_suffix_le _ _ (List.tail_suffix _)
            · rw [if_neg htr]
          have hfe1 : (joinL (st1.overlap ++ [w])).length =
              (joinL st1.overlap).length + w.length + 1 := by
            rw [joinL_length_append_singleton, if_neg hf1]
          have hce2 : (joinL (st2.cur ++ [w])).length =
              (joinL st2.cur).length + w.length + 1 := by
            rw [joinL_length_append_singleton, if_neg hc2]
          simp only
          omega
        · right
          have hce1 : (joinL (st1.cur ++ [w])).length =
              (joinL st1.cur).length + w.length + 1 := by
            rw [joinL_length_append_singleton, if_neg hc1]
          have hce2 : (joinL (st2.cur ++ [w])).length =
              (joinL st2.cur).length + w.length + 1 := by
            rw [joinL_length_append_singleton, if_neg hc2]
          simp only
          omega

theorem pairInv_foldl (m1 m2 ov : Nat) (hm : m2 ≤ m1) (ws : List W) :
    ∀ (p : List W) (st1 st2 : ChunkState), PairInv m1 m2 p st1 st2 →
      PairInv m1 m2 (p ++ ws)
        (ws.foldl (chunkStep m1 ov) st1) (ws.foldl (chunkStep m2 ov) st2) := by
  induction ws with
  | nil => intro p st1 st2 h; simpa using h
  | cons w ws ih =>
    intro p st1 st2 h
    have h2 := ih (p ++ [w]) _ _ (pairInv_step m1 m2 ov hm p st1 st2 w h)
    simpa [List.append_assoc] using h2

theorem chunkLoop_pairInv (m1 m2 ov : Nat) (hm : m2 ≤ m1) (ws : List W) :
    PairInv m1 m2 ws (chunkLoop m1 ov ws) (chunkLoop m2 ov ws) := by
  have := pairInv_foldl m1 m2 ov hm ws [] _ _ (pairInv_init m1 m2 hm)
  simpa [chunkLoop] using this

/-- Word-level monotonicity: a smaller budget never produces fewer chunks. -/
theorem chunkWordsByTokens_length_mono (m1 m2 ov : Nat) (hm : m2 ≤ m1) (ws : List W) :
    (chunkWordsByTokens m1 ov ws).length ≤ (chunkWordsByTokens m2 ov ws).length := by
  obtain ⟨hc1e, hc2e, _, _, _, hd, _, _⟩ := chunkLoop_pairInv m1 m2 ov hm ws
  unfold chunkWordsByTokens
  by_cases h1 : (chunkLoop m1 ov ws).cur = []
  · rw [if_pos h1, if_pos (hc2e.mpr (hc1e.mp h1))]
    exact hd
  · rw [if_neg h1, if_neg (fun h => h1 (hc1e.mpr (hc2e.mp h)))]
    simp only [List.length_append, List.length_singleton]
    omega

theorem chunkWordsByTokens_nil (m ov : Nat) : chunkWordsByTokens m ov [] = [] := rfl

/-- C5.  For every text `T` and fixed `overlapTokens`, decreasing `maxTokens`
never decreases the number of chunks: with `m2 ≤ m1`,
`chunkTextByTokens T m1 overlapTokens` has at most as many chunks as
`chunkTextByTokens T m2 overlapTokens`.  Proved by coupling the two runs of
the word loop with the invariant `PairInv`. -/
theorem chunkTextByTokens_count_monotone (T : String) (m1 m2 overlapTokens : Nat)
    (hm : m2 ≤ m1) :
    (chunkTextByTokens T m1 overlapTokens).length ≤
      (chunkTextByTokens T m2 overlapTokens).length := by
  unfold chunkTextByTokens chunkTextL
  simp only [List.length_map]
  by_cases h0 : T.toList = []
  · rw [if_pos h0, if_pos h0]
  · rw [if_neg h0, if_neg h0]
    by_cases ht2 : countTokensL T.toList ≤ m2
    · rw [if_pos ht2, if_pos (ht2.trans hm)]
    · rw [if_neg ht2]
      by_cases ht1 : countTokensL T.toList ≤ m1
      · rw [if_pos ht1]
        by_cases h2 : (chunkWordsByTokens m2 overlapTokens (wordsOfL T.toList)).map joinL = []
        · rw [if_pos h2]
        · rw [if_neg h2]
          simpa using Nat.one_le_iff_ne_zero.mpr (fun h => h2 (List.eq_nil_of_length_eq_zero h))
      · rw [if_neg ht1]
        by_cases h2 : (chunkWordsByTokens m2 overlapTokens (wordsOfL T.toList)).map joinL = []
        · -- the small budget produced nothing: only possible on an empty word list
          rw [if_pos h2]
          have hw2 : chunkWordsByTokens m2 overlapTokens (wordsOfL T.toList) = [] := by
            simpa using h2
          have hcur2 : (chunkLoop m2 overlapTokens (wordsOfL T.toList)).cur = [] := by
            unfold chunkWordsByTokens at hw2
            by_cases hc : (chunkLoop m2 overlapTokens (wordsOfL T.toList)).cur = []
            · exact hc
            · rw [if_neg hc] at hw2
              simp at hw2
          obtain ⟨_, hc2e, _, _, _, _, _, _⟩ :=
            chunkLoop_pairInv m1 m2 overlapTokens hm (wordsOfL T.toList)
          have hwnil : wordsOfL T.toList = [] := hc2e.mp hcur2
          rw [hwnil, chunkWordsByTokens_nil]
          simp
        · rw [if_neg h2]
          by_cases h1 : (chunkWordsByTokens m1 overlapTokens (wordsOfL T.toList)).map joinL = []
          · rw [if_pos h1]
            simpa using Nat.one_le_iff_ne_zero.mpr (fun h => h2 (List.eq_nil_of_length_eq_zero h))
          · rw [if_neg h1]
            simpa using chunkWordsByTokens_length_mono m1 m2 overlapTokens hm (wordsOfL T.toList)

theorem chunkTextByTokens_count_monotone_witness :
    (3 ≤ 5 ∧
      chunkTextByTokens "aaaaaaa bbbbbbb" 5 200 = ["aaaaaaa bbbbbbb"] ∧
      chunkTextByTokens "aaaaaaa bbbbbbb" 3 200 = ["aaaaaaa", "aaaaaaa bbbbbbb"]) ∧
    (chunkTextByTokens "aaaaaaa bbbbbbb" 5 200).length ≤
      (chunkTextByTokens "aaaaaaa bbbbbbb" 3 200).length :=
  ⟨⟨by decide, by decide, by decide⟩,
    chunkTextByTokens_count_monotone "aaaaaaa bbbbbbb" 5 3 200 (by decide)⟩

end FileClassifier
